import Mathlib

/-!
Verification of the rl-grid-world learning and perception subsystem.

The definitions below are a shallow embedding of `src/env.js` (SignalField:
BFS distances, field computation, read, gradient) and `src/agent.js`
(QLearningAgent and SignalQAgent: epsilon-greedy action selection, the
Bellman update, table reset).  JavaScript numbers are modelled as exact
rationals, mutable fields as explicit state passing, and the agents'
dense tables as total functions from indices to values.  The BFS while
loop is run on explicit fuel (`rows * cols` is proved sufficient).
Randomness is modelled by passing the successive `Math.random()` draws
as explicit arguments in [0,1).
-/

namespace RLGrid

/-- Cell codes from env.js. -/
def CELL_EMPTY : Nat := 0

/-- Wall cell code. -/
def CELL_WALL : Nat := 1

/-- Goal cell code. -/
def CELL_GOAL : Nat := 2

/-- Pit cell code. -/
def CELL_PIT : Nat := 3

/-- Number of actions (up, right, down, left). -/
def NUM_ACTIONS : Nat := 4

/-- Direction deltas (dRow, dCol) for actions up, right, down, left. -/
def DELTAS : List (Int × Int) := [(-1, 0), (0, 1), (1, 0), (0, -1)]

/-- A grid layout: rows of cell codes. -/
abbrev Layout := List (List Nat)

/-- Number of rows (layout.length). -/
def rowsOf (layout : Layout) : Nat := layout.length

/-- Number of columns (layout[0].length). -/
def colsOf (layout : Layout) : Nat := (layout.headD []).length

/-- Cell code at (r, c). -/
def cellAt (layout : Layout) (r c : Nat) : Nat := (layout.getD r []).getD c 0

/-- Pointwise update of a distance grid, modelling dist[r][c] = v. -/
def updDist (f : Nat → Nat → Int) (r c : Nat) (v : Int) : Nat → Nat → Int :=
  fun r2 c2 => if r2 = r ∧ c2 = c then v else f r2 c2

/-- State of the while loop in SignalField._bfsDistances: the distance grid
(-1 meaning undiscovered), the queue of discovered cells, and the index of
the next queue entry to process. -/
structure BfsSt where
  dist : Nat → Nat → Int
  queue : List (Nat × Nat)
  head : Nat

/-- One neighbor check of the BFS inner loop: skip when out of bounds, a wall,
or already discovered; otherwise record distance d+1 and push the cell. -/
def tryVisit (layout : Layout) (rc : Nat × Nat) (d : Int)
    (acc : (Nat → Nat → Int) × List (Nat × Nat)) (delta : Int × Int) :
    (Nat → Nat → Int) × List (Nat × Nat) :=
  let nr : Int := (rc.1 : Int) + delta.1
  let nc : Int := (rc.2 : Int) + delta.2
  if nr < 0 ∨ (rowsOf layout : Int) ≤ nr ∨ nc < 0 ∨ (colsOf layout : Int) ≤ nc then acc
  else if cellAt layout nr.toNat nc.toNat = CELL_WALL then acc
  else if 0 ≤ acc.1 nr.toNat nc.toNat then acc
  else (updDist acc.1 nr.toNat nc.toNat (d + 1), acc.2 ++ [(nr.toNat, nc.toNat)])

/-- One iteration of the BFS while loop: read the cell at index head and its
distance, try all four neighbors, advance head. -/
def bfsStep (layout : Layout) (s : BfsSt) : BfsSt :=
  let rc := s.queue.getD s.head (0, 0)
  let d := s.dist rc.1 rc.2
  let res := DELTAS.foldl (tryVisit layout rc d) (s.dist, s.queue)
  ⟨res.1, res.2, s.head + 1⟩

/-- The BFS while loop (while head < queue.length), run on explicit fuel. -/
def bfsRun (layout : Layout) : Nat → BfsSt → BfsSt
  | 0, s => s
  | fuel + 1, s =>
      if s.head < s.queue.length then bfsRun layout fuel (bfsStep layout s) else s

/-- SignalField._bfsDistances: distances from (startRow, startCol); the grid is
initialized to -1 with the start at 0, and the queue holds just the start.
Fuel rows*cols is sufficient for the loop to finish (proved below). -/
def bfsDistances (layout : Layout) (startRow startCol : Nat) : Nat → Nat → Int :=
  let s0 : BfsSt :=
    ⟨updDist (fun _ _ => -1) startRow startCol 0, [(startRow, startCol)], 0⟩
  (bfsRun layout (rowsOf layout * colsOf layout) s0).dist

/-- An emitter: a cell radiating signal with a given strength. -/
structure Emitter where
  row : Nat
  col : Nat
  strength : ℚ

/-- The emitter scan in the SignalField constructor: goal cells with strength
+1.0 and pit cells with strength -1.0, scanned row-major. -/
def emittersOf (layout : Layout) : List Emitter :=
  (List.range (rowsOf layout)).flatMap (fun r =>
    (List.range (colsOf layout)).filterMap (fun c =>
      if cellAt layout r c = CELL_GOAL then some ⟨r, c, 1⟩
      else if cellAt layout r c = CELL_PIT then some ⟨r, c, -1⟩
      else none))

/-- The inner double loop of SignalField.compute for one emitter: add
strength / (1 + dist) at every in-bounds cell with a non-negative distance. -/
def addEmitter (layout : Layout) (field : Nat → Nat → ℚ) (em : Emitter) :
    Nat → Nat → ℚ :=
  let dist := bfsDistances layout em.row em.col
  fun r c =>
    if r < rowsOf layout ∧ c < colsOf layout ∧ 0 ≤ dist r c then
      field r c + em.strength / (1 + (dist r c : ℚ))
    else field r c

/-- SignalField.compute on a previous field: zero every in-bounds entry, then
accumulate the contribution of each emitter in order. -/
def computeField (layout : Layout) (emitters : List Emitter)
    (old : Nat → Nat → ℚ) : Nat → Nat → ℚ :=
  emitters.foldl (addEmitter layout)
    (fun r c => if r < rowsOf layout ∧ c < colsOf layout then 0 else old r c)

/-- SignalField: the layout, the emitters (fixed at construction), and the
current field. -/
structure SignalField where
  layout : Layout
  emitters : List Emitter
  field : Nat → Nat → ℚ

/-- SignalField.compute: recompute the field in place from the emitters. -/
def SignalField.compute (sf : SignalField) : SignalField :=
  { sf with field := computeField sf.layout sf.emitters sf.field }

/-- The SignalField constructor: zero field, emitters scanned from the layout,
followed by compute(). -/
def SignalField.init (layout : Layout) : SignalField :=
  SignalField.compute ⟨layout, emittersOf layout, fun _ _ => 0⟩

/-- SignalField.read: the cached combined signal at a cell. -/
def SignalField.read (sf : SignalField) (row col : Nat) : ℚ := sf.field row col

/-- SignalField.gradient: for each of the four directions, the neighbor's value
when the neighbor is in bounds and not a wall, otherwise the cell's own value. -/
def SignalField.gradient (sf : SignalField) (row col : Nat) : List ℚ :=
  DELTAS.map (fun delta =>
    let nr : Int := (row : Int) + delta.1
    let nc : Int := (col : Int) + delta.2
    if nr < 0 ∨ (rowsOf sf.layout : Int) ≤ nr ∨ nc < 0 ∨ (colsOf sf.layout : Int) ≤ nc then
      sf.field row col
    else if cellAt sf.layout nr.toNat nc.toNat = CELL_WALL then sf.field row col
    else sf.field nr.toNat nc.toNat)

/-- Math.floor of a non-negative draw, producing an index. -/
def floorNat (x : ℚ) : Nat := (⌊x⌋).toNat

/-- The loop body of the tie-break scan of act: a strict improvement restarts
the candidate list, a tie extends it, anything else is skipped. -/
def bestStep (qv : Nat → ℚ) (acc : ℚ × List Nat) (a : Nat) : ℚ × List Nat :=
  if qv a > acc.1 then (qv a, [a])
  else if qv a = acc.1 then (acc.1, acc.2 ++ [a])
  else acc

/-- The tie-break scan of act: best value seeded with action 0, then actions
1..3 are scanned with bestStep. The first component is the best value, the
second the candidate list. -/
def bestActionsOf (qv : Nat → ℚ) : ℚ × List Nat :=
  [1, 2, 3].foldl (bestStep qv) (qv 0, [0])

/-- The epsilon-greedy policy body shared verbatim by QLearningAgent.act and
SignalQAgent.act: u1 is the exploration draw and u2 the following draw (used
either for the uniform random action or for the tie-break index). -/
def policyAct (epsilon : ℚ) (qv : Nat → ℚ) (u1 u2 : ℚ) : Nat :=
  if u1 < epsilon then floorNat (u2 * (NUM_ACTIONS : ℚ))
  else
    let best := (bestActionsOf qv).2
    best.getD (floorNat (u2 * (best.length : ℚ))) 0

/-- Math.max over the four entries of a next-state row. -/
def max4 (x0 x1 x2 x3 : ℚ) : ℚ := max (max (max x0 x1) x2) x3

/-- QLearningAgent: position-indexed tabular Q-learning. The table is a total
function (row, col, action) → value, zero outside any written entry. -/
structure QLearningAgent where
  rows : Nat
  cols : Nat
  alpha : ℚ
  gamma : ℚ
  epsilon : ℚ
  q : Nat → Nat → Nat → ℚ
  totalUpdates : Nat

/-- The QLearningAgent constructor: all table entries start at 0. -/
def QLearningAgent.init (rows cols : Nat) (alpha gamma epsilon : ℚ) :
    QLearningAgent :=
  ⟨rows, cols, alpha, gamma, epsilon, fun _ _ _ => 0, 0⟩

/-- QLearningAgent.act: epsilon-greedy over the 4-vector at (row, col). -/
def QLearningAgent.act (ag : QLearningAgent) (state : Nat × Nat) (u1 u2 : ℚ) :
    Nat :=
  policyAct ag.epsilon (fun a => ag.q state.1 state.2 a) u1 u2

/-- QLearningAgent.learn: the Q-learning update at (state, action). -/
def QLearningAgent.learn (ag : QLearningAgent) (state : Nat × Nat) (action : Nat)
    (reward : ℚ) (nextState : Nat × Nat) (done : Bool) : QLearningAgent :=
  let r := state.1
  let c := state.2
  let currentQ := ag.q r c action
  let target :=
    if done then reward
    else
      reward + ag.gamma * max4 (ag.q nextState.1 nextState.2 0)
        (ag.q nextState.1 nextState.2 1) (ag.q nextState.1 nextState.2 2)
        (ag.q nextState.1 nextState.2 3)
  { ag with
    q := fun r2 c2 a2 =>
      if r2 = r ∧ c2 = c ∧ a2 = action then currentQ + ag.alpha * (target - currentQ)
      else ag.q r2 c2 a2,
    totalUpdates := ag.totalUpdates + 1 }

/-- QLearningAgent.getQ: the 4 action values at a cell, as a list. -/
def QLearningAgent.getQ (ag : QLearningAgent) (row col : Nat) : List ℚ :=
  [ag.q row col 0, ag.q row col 1, ag.q row col 2, ag.q row col 3]

/-- QLearningAgent.resetQ: zero every in-bounds entry and the update counter. -/
def QLearningAgent.resetQ (ag : QLearningAgent) : QLearningAgent :=
  { ag with
    q := fun r c a => if r < ag.rows ∧ c < ag.cols then 0 else ag.q r c a,
    totalUpdates := 0 }

/-- The number of perceptual states, 3^4 = 81, fixed in the SignalQAgent
constructor and never reassigned. -/
def SignalQAgent.numStates : Nat := 81

/-- SignalQAgent: perception-indexed tabular Q-learning over the signal field. -/
structure SignalQAgent where
  signalField : SignalField
  alpha : ℚ
  gamma : ℚ
  epsilon : ℚ
  threshold : ℚ
  q : Nat → Nat → ℚ
  totalUpdates : Nat

/-- The SignalQAgent constructor: all table entries start at 0. -/
def SignalQAgent.init (sf : SignalField) (alpha gamma epsilon threshold : ℚ) :
    SignalQAgent :=
  ⟨sf, alpha, gamma, epsilon, threshold, fun _ _ => 0, 0⟩

/-- Base-3 place values for the directions up, right, down, left. -/
def multipliers : List Nat := [27, 9, 3, 1]

/-- SignalQAgent._stateIndex: discretize the 4 gradient deltas into bins
0 (worse), 1 (neutral), 2 (better) and combine with the base-3 place values. -/
def SignalQAgent.stateIndex (ag : SignalQAgent) (gridState : Nat × Nat) : Nat :=
  let here := ag.signalField.read gridState.1 gridState.2
  let neighbors := ag.signalField.gradient gridState.1 gridState.2
  (List.range 4).foldl
    (fun index d =>
      let delta := neighbors.getD d 0 - here
      let bin : Nat :=
        if delta < -ag.threshold then 0
        else if delta > ag.threshold then 2
        else 1
      index + bin * multipliers.getD d 0)
    0

/-- SignalQAgent.act: epsilon-greedy over the 4-vector at the state index. -/
def SignalQAgent.act (ag : SignalQAgent) (gridState : Nat × Nat) (u1 u2 : ℚ) :
    Nat :=
  policyAct ag.epsilon (fun a => ag.q (ag.stateIndex gridState) a) u1 u2

/-- SignalQAgent.learn: the Q-learning update addressed by state index. -/
def SignalQAgent.learn (ag : SignalQAgent) (gridState : Nat × Nat) (action : Nat)
    (reward : ℚ) (nextGridState : Nat × Nat) (done : Bool) : SignalQAgent :=
  let s := ag.stateIndex gridState
  let ns := ag.stateIndex nextGridState
  let currentQ := ag.q s action
  let target :=
    if done then reward
    else reward + ag.gamma * max4 (ag.q ns 0) (ag.q ns 1) (ag.q ns 2) (ag.q ns 3)
  { ag with
    q := fun s2 a2 =>
      if s2 = s ∧ a2 = action then currentQ + ag.alpha * (target - currentQ)
      else ag.q s2 a2,
    totalUpdates := ag.totalUpdates + 1 }

/-- SignalQAgent.resetQ: zero every entry below numStates and the counter. -/
def SignalQAgent.resetQ (ag : SignalQAgent) : SignalQAgent :=
  { ag with
    q := fun s a => if s < SignalQAgent.numStates then 0 else ag.q s a,
    totalUpdates := 0 }

/-- Spec side: a cell that a walk may enter is in bounds and not a wall. -/
def okCell (layout : Layout) (p : Nat × Nat) : Prop :=
  p.1 < rowsOf layout ∧ p.2 < colsOf layout ∧ cellAt layout p.1 p.2 ≠ CELL_WALL

/-- Spec side: a step from p to q via one of the deltas of the list ds, with q
an enterable cell. -/
def stepVia (layout : Layout) (ds : List (Int × Int)) (p q : Nat × Nat) : Prop :=
  okCell layout q ∧
    ∃ delta ∈ ds, (p.1 : Int) + delta.1 = q.1 ∧ (p.2 : Int) + delta.2 = q.2

/-- Spec side: one unit step of a 4-connected walk: the target is adjacent via
one of the four deltas and is an enterable cell. -/
def stepTo (layout : Layout) (p q : Nat × Nat) : Prop :=
  stepVia layout DELTAS p q

/-- Spec side: Walk layout start x n holds when there is a 4-connected walk of
n unit steps from start to x all of whose cells after the start are in bounds
and not walls. The shortest such n is the path distance of the spec. -/
inductive Walk (layout : Layout) (start : Nat × Nat) : Nat × Nat → Nat → Prop where
  | zero : Walk layout start start 0
  | succ {x y : Nat × Nat} {n : Nat} :
      Walk layout start x n → stepTo layout x y → Walk layout start y (n + 1)

/-- Spec side: the bin of one gradient delta at a given threshold, with the
strict comparisons of the source. -/
def binDelta (t delta : ℚ) : Nat :=
  if delta < -t then 0 else if delta > t then 2 else 1

/-- Spec side: the delta of direction d at a grid position: the gradient entry
minus the value at the position itself. -/
def dirDelta (ag : SignalQAgent) (p : Nat × Nat) (d : Nat) : ℚ :=
  (ag.signalField.gradient p.1 p.2).getD d 0 - ag.signalField.read p.1 p.2

/-- Invariant of the BFS while loop, relating the loop state to the walk
semantics of the grid: discovered cells are exactly the queue entries, the
queue is duplicate-free and its distances are nondecreasing with the last at
most one above the entry at head, every discovered cell carries the length of
an actual walk from the start, and every neighbor of a processed cell is
discovered with distance at most one more. -/
structure BfsInv (layout : Layout) (start : Nat × Nat) (s : BfsSt) : Prop where
  mem_iff : ∀ p : Nat × Nat, p ∈ s.queue ↔ 0 ≤ s.dist p.1 p.2
  nodup : s.queue.Nodup
  head_le : s.head ≤ s.queue.length
  sound : ∀ p ∈ s.queue, Walk layout start p (s.dist p.1 p.2).toNat
  mono : ∀ i j, i ≤ j → j < s.queue.length →
    s.dist (s.queue.getD i (0, 0)).1 (s.queue.getD i (0, 0)).2
      ≤ s.dist (s.queue.getD j (0, 0)).1 (s.queue.getD j (0, 0)).2
  tail_bound : s.head < s.queue.length → ∀ j, j < s.queue.length →
    s.dist (s.queue.getD j (0, 0)).1 (s.queue.getD j (0, 0)).2
      ≤ s.dist (s.queue.getD s.head (0, 0)).1 (s.queue.getD s.head (0, 0)).2 + 1
  processed : ∀ i, i < s.head → ∀ q : Nat × Nat,
    stepTo layout (s.queue.getD i (0, 0)) q →
    0 ≤ s.dist q.1 q.2
      ∧ s.dist q.1 q.2
          ≤ s.dist (s.queue.getD i (0, 0)).1 (s.queue.getD i (0, 0)).2 + 1
  start_zero : s.dist start.1 start.2 = 0
  inBounds : ∀ p ∈ s.queue, p.1 < rowsOf layout ∧ p.2 < colsOf layout

/-- What the inner neighbor loop of one BFS iteration guarantees, for a cell
rc being processed at distance d and an initial (dist, queue) pair: set
distances are preserved, every change sets an undiscovered neighbor of rc to
d + 1 and appends it to the queue, discovery stays in sync with the queue,
duplicate-freedom is kept, every neighbor of rc ends up discovered, and all
distances stay bounded by d + 1 when they were before. -/
structure FoldSpec (layout : Layout) (rc : Nat × Nat) (d : Int)
    (ds : List (Int × Int)) (dist : Nat → Nat → Int) (qu : List (Nat × Nat))
    (res : (Nat → Nat → Int) × List (Nat × Nat)) : Prop where
  preserve : ∀ r c, 0 ≤ dist r c → res.1 r c = dist r c
  values : ∀ r c, res.1 r c = dist r c
    ∨ (res.1 r c = d + 1 ∧ dist r c < 0 ∧ stepVia layout ds rc (r, c))
  queue_ext : ∃ ext, res.2 = qu ++ ext
    ∧ ∀ p ∈ ext, res.1 p.1 p.2 = d + 1 ∧ stepVia layout ds rc p
  mem_iff : ∀ p : Nat × Nat, p ∈ res.2 ↔ 0 ≤ res.1 p.1 p.2
  nodup : res.2.Nodup
  cover : ∀ q : Nat × Nat, stepVia layout ds rc q → 0 ≤ res.1 q.1 q.2
  bound : ∀ r c, 0 ≤ res.1 r c → res.1 r c ≤ d + 1

/-- The contribution of one emitter to one cell: strength / (1 + d) at
in-bounds cells whose BFS distance from the emitter is non-negative
(reachable), and 0 otherwise. -/
def contribOf (layout : Layout) (em : Emitter) (r c : Nat) : ℚ :=
  if r < rowsOf layout ∧ c < colsOf layout
      ∧ 0 ≤ bfsDistances layout em.row em.col r c then
    em.strength / (1 + (bfsDistances layout em.row em.col r c : ℚ))
  else 0

/-! Lemmas about the uniform draws. -/

theorem floorNat_interval (u : ℚ) (n k : Nat) (hk : k < n)
    (h1 : (k : ℚ) / n ≤ u) (h2 : u < ((k : ℚ) + 1) / n) :
    floorNat (u * n) = k := by
  have hn : (0 : ℚ) < n := by exact_mod_cast Nat.zero_lt_of_lt hk
  rw [div_le_iff hn] at h1
  rw [lt_div_iff hn] at h2
  have hfloor : ⌊u * n⌋ = (k : ℤ) := by
    rw [Int.floor_eq_iff]
    constructor
    · push_cast
      linarith
    · push_cast
      linarith
  simp [floorNat, hfloor]

theorem floorNat_lt (u : ℚ) (n : Nat) (h1 : 0 ≤ u) (h2 : u < 1) (hn : 0 < n) :
    floorNat (u * n) < n := by
  have hn0 : (0 : ℚ) < n := by exact_mod_cast hn
  have : ⌊u * n⌋ < (n : ℤ) := by
    rw [Int.floor_lt]
    push_cast
    calc u * n < 1 * n := by apply mul_lt_mul_of_pos_right h2 hn0
    _ = n := one_mul _
  simp only [floorNat]
  omega

/-! The tie-break scan: specification of the foldl in act. -/

theorem bestActions_fold_spec (qv : Nat → ℚ) :
    ∀ (l : List Nat) (seen : List Nat) (v : ℚ) (L : List Nat),
      (∀ a, a ∈ L ↔ a ∈ seen ∧ qv a = v) →
      (∀ a ∈ seen, qv a ≤ v) →
      L ≠ [] →
      (∀ x ∈ L, ∀ y ∈ l, x < y) →
      l.Pairwise (· < ·) →
      L.Pairwise (· < ·) →
      (∀ a, a ∈ (l.foldl (bestStep qv) (v, L)).2
          ↔ a ∈ seen ++ l ∧ qv a = (l.foldl (bestStep qv) (v, L)).1)
      ∧ (∀ a ∈ seen ++ l, qv a ≤ (l.foldl (bestStep qv) (v, L)).1)
      ∧ (l.foldl (bestStep qv) (v, L)).2 ≠ []
      ∧ (l.foldl (bestStep qv) (v, L)).2.Pairwise (· < ·) := by
  intro l
  induction l with
  | nil =>
      intro seen v L hmem hub hne hord hl hLp
      refine ⟨?_, ?_, ?_, ?_⟩
      · intro a
        simpa using hmem a
      · intro a ha
        exact hub a (by simpa using ha)
      · simpa using hne
      · simpa using hLp
  | cons b l ih =>
      intro seen v L hmem hub hne hord hl hLp
      simp only [List.foldl_cons]
      have hfut : ∀ y ∈ l, b < y := (List.pairwise_cons.mp hl).1
      have hltail : l.Pairwise (· < ·) := (List.pairwise_cons.mp hl).2
      rcases lt_trichotomy (qv b) v with hlt | heq | hgt
      · have hcond1 : ¬ (qv b > v) := not_lt_of_lt hlt
        have hcond2 : ¬ (qv b = v) := ne_of_lt hlt
        rw [bestStep, if_neg hcond1, if_neg hcond2]
        have := ih (seen ++ [b]) v L
          (by
            intro a
            rw [hmem a]
            constructor
            · rintro ⟨ha, hq⟩
              exact ⟨by simp [ha], hq⟩
            · rintro ⟨ha, hq⟩
              refine ⟨?_, hq⟩
              rcases (by simpa using ha : a ∈ seen ∨ a = b) with h | h
              · exact h
              · exact absurd hq (by rw [h]; exact ne_of_lt hlt))
          (by
            intro a ha
            rcases (by simpa using ha : a ∈ seen ∨ a = b) with h | h
            · exact hub a h
            · rw [h]; exact le_of_lt hlt)
          hne
          (by
            intro x hx y hy
            exact hord x hx y (by simp [hy]))
          hltail hLp
        simpa [List.append_assoc] using this
      · have hcond1 : ¬ (qv b > v) := by rw [heq]; exact lt_irrefl v
        rw [bestStep, if_neg hcond1, if_pos heq]
        have := ih (seen ++ [b]) v (L ++ [b])
          (by
            intro a
            constructor
            · intro ha
              rcases (by simpa using ha : a ∈ L ∨ a = b) with h | h
              · obtain ⟨hs, hq⟩ := (hmem a).mp h
                exact ⟨by simp [hs], hq⟩
              · exact ⟨by simp [h], by rw [h]; exact heq⟩
            · rintro ⟨ha, hq⟩
              rcases (by simpa using ha : a ∈ seen ∨ a = b) with h | h
              · have := (hmem a).mpr ⟨h, hq⟩
                simp [this]
              · simp [h])
          (by
            intro a ha
            rcases (by simpa using ha : a ∈ seen ∨ a = b) with h | h
            · exact hub a h
            · rw [h]; exact le_of_eq heq)
          (by simp)
          (by
            intro x hx y hy
            rcases (by simpa using hx : x ∈ L ∨ x = b) with h | h
            · exact hord x h y (by simp [hy])
            · rw [h]; exact hfut y hy)
          hltail
          (by
            rw [List.pairwise_append]
            refine ⟨hLp, by simp, ?_⟩
            intro x hx y hy
            have hyb : y = b := by simpa using hy
            rw [hyb]
            exact hord x hx b (by simp))
        simpa [List.append_assoc] using this
      · have hcond1 : qv b > v := hgt
        rw [bestStep, if_pos hcond1]
        have := ih (seen ++ [b]) (qv b) [b]
          (by
            intro a
            constructor
            · intro ha
              have hab : a = b := by simpa using ha
              exact ⟨by simp [hab], by rw [hab]⟩
            · rintro ⟨ha, hq⟩
              rcases (by simpa using ha : a ∈ seen ∨ a = b) with h | h
              · exact absurd hq (ne_of_lt (lt_of_le_of_lt (hub a h) hgt))
              · simp [h])
          (by
            intro a ha
            rcases (by simpa using ha : a ∈ seen ∨ a = b) with h | h
            · exact le_of_lt (lt_of_le_of_lt (hub a h) hgt)
            · rw [h])
          (by simp)
          (by
            intro x hx y hy
            have hxb : x = b := by simpa using hx
            rw [hxb]
            exact hfut y hy)
          hltail
          (by simp)
        simpa [List.append_assoc] using this

end RLGrid

namespace RLGrid

theorem bestActions_spec (qv : Nat → ℚ) :
    (∀ a, a ∈ (bestActionsOf qv).2
        ↔ a ∈ ([0, 1, 2, 3] : List Nat) ∧ qv a = (bestActionsOf qv).1)
    ∧ (∀ a ∈ ([0, 1, 2, 3] : List Nat), qv a ≤ (bestActionsOf qv).1)
    ∧ (bestActionsOf qv).2 ≠ []
    ∧ (bestActionsOf qv).2.Nodup := by
  have h := bestActions_fold_spec qv [1, 2, 3] [0] (qv 0) [0]
    (by
      intro a
      constructor
      · intro ha
        have ha0 : a = 0 := by simpa using ha
        exact ⟨by simp [ha0], by rw [ha0]⟩
      · rintro ⟨ha, _⟩
        simpa using ha)
    (by
      intro a ha
      have ha0 : a = 0 := by simpa using ha
      rw [ha0])
    (by simp)
    (by
      intro x hx y hy
      have hx0 : x = 0 := by simpa using hx
      rw [hx0]
      rcases (by simpa using hy : y = 1 ∨ y = 2 ∨ y = 3) with h | h | h <;> omega)
    (by norm_num)
    (by simp)
  obtain ⟨h1, h2, h3, h4⟩ := h
  refine ⟨?_, ?_, h3, List.Pairwise.imp (fun hlt => ne_of_lt hlt) h4⟩
  · intro a
    simpa using h1 a
  · intro a ha
    exact h2 a (by simpa using ha)

theorem bestActions_mem (qv : Nat → ℚ) (a : Nat) :
    a ∈ (bestActionsOf qv).2 ↔ (a < 4 ∧ ∀ b, b < 4 → qv b ≤ qv a) := by
  obtain ⟨hmem, hub, hne, _⟩ := bestActions_spec qv
  have hlist : ∀ x : Nat, x ∈ ([0, 1, 2, 3] : List Nat) ↔ x < 4 := by
    intro x
    constructor
    · intro hx
      rcases (by simpa using hx : x = 0 ∨ x = 1 ∨ x = 2 ∨ x = 3) with h | h | h | h <;> omega
    · intro hx
      interval_cases x <;> simp
  constructor
  · intro ha
    obtain ⟨hal, hq⟩ := (hmem a).mp ha
    refine ⟨(hlist a).mp hal, ?_⟩
    intro b hb
    rw [hq]
    exact hub b ((hlist b).mpr hb)
  · rintro ⟨ha4, hmax⟩
    obtain ⟨a0, ha0⟩ := List.exists_mem_of_ne_nil _ hne
    obtain ⟨ha0l, ha0q⟩ := (hmem a0).mp ha0
    have h1 : qv a ≤ (bestActionsOf qv).1 := hub a ((hlist a).mpr ha4)
    have h2 : (bestActionsOf qv).1 ≤ qv a := by
      rw [← ha0q]
      exact hmax a0 ((hlist a0).mp ha0l)
    exact (hmem a).mpr ⟨(hlist a).mpr ha4, le_antisymm h1 h2⟩

theorem bestActions_all_zero (qv : Nat → ℚ) (h : ∀ a, a < 4 → qv a = 0) :
    bestActionsOf qv = (0, [0, 1, 2, 3]) := by
  have h0 := h 0 (by norm_num)
  have h1 := h 1 (by norm_num)
  have h2 := h 2 (by norm_num)
  have h3 := h 3 (by norm_num)
  simp [bestActionsOf, bestStep, h0, h1, h2, h3]

theorem policyAct_lt (epsilon : ℚ) (qv : Nat → ℚ) (u1 u2 : ℚ)
    (hu2a : 0 ≤ u2) (hu2b : u2 < 1) : policyAct epsilon qv u1 u2 < 4 := by
  rw [policyAct]
  split
  · have : (NUM_ACTIONS : ℚ) = ((4 : Nat) : ℚ) := by norm_num [NUM_ACTIONS]
    rw [this]
    exact floorNat_lt u2 4 hu2a hu2b (by norm_num)
  · obtain ⟨_, _, hne, _⟩ := bestActions_spec qv
    have hlen : 0 < (bestActionsOf qv).2.length := List.length_pos.mpr hne
    have hidx : floorNat (u2 * ((bestActionsOf qv).2.length : ℚ)) <
        (bestActionsOf qv).2.length :=
      floorNat_lt u2 _ hu2a hu2b hlen
    have hmem : (bestActionsOf qv).2.getD
        (floorNat (u2 * ((bestActionsOf qv).2.length : ℚ))) 0 ∈ (bestActionsOf qv).2 := by
      rw [List.getD_eq_getElem _ 0 hidx]
      exact List.getElem_mem hidx
    exact ((bestActions_mem qv _).mp hmem).1

/-- C3: the epsilon-greedy policy: when the exploration draw u1 is below
epsilon, the returned action is floor(u2*4), independent of the value vector,
and each of the 4 actions is obtained on an interval of u2 of length 1/4; when
u1 is at least epsilon, the candidate list is exactly the set of actions
attaining the maximum (without duplicates) and the returned action is the
candidate indexed by floor(u2*len), each candidate being obtained on an
interval of u2 of length 1/len; with an all-zero table and epsilon = 0 each of
the 4 actions is obtained on an interval of length 1/4. Both agents apply this
policy to their value vector. -/
theorem c3_epsilon_greedy (epsilon : ℚ) (qv : Nat → ℚ) (u1 u2 : ℚ)
    (hu1 : 0 ≤ u1) (hu2a : 0 ≤ u2) (hu2b : u2 < 1) :
    (u1 < epsilon →
        (∀ qv2 : Nat → ℚ, policyAct epsilon qv u1 u2 = policyAct epsilon qv2 u1 u2)
        ∧ ∀ k : Nat, k < 4 → (k : ℚ) / 4 ≤ u2 → u2 < ((k : ℚ) + 1) / 4 →
            policyAct epsilon qv u1 u2 = k)
    ∧ (epsilon ≤ u1 →
        (∀ a, a ∈ (bestActionsOf qv).2 ↔ (a < 4 ∧ ∀ b, b < 4 → qv b ≤ qv a))
        ∧ (bestActionsOf qv).2.Nodup
        ∧ (bestActionsOf qv).2 ≠ []
        ∧ ∀ i : Nat, i < (bestActionsOf qv).2.length →
            (i : ℚ) / ((bestActionsOf qv).2.length : ℚ) ≤ u2 →
            u2 < ((i : ℚ) + 1) / ((bestActionsOf qv).2.length : ℚ) →
            policyAct epsilon qv u1 u2 = (bestActionsOf qv).2.getD i 0)
    ∧ ((∀ a, a < 4 → qv a = 0) → epsilon = 0 →
        ∀ k : Nat, k < 4 → (k : ℚ) / 4 ≤ u2 → u2 < ((k : ℚ) + 1) / 4 →
          policyAct epsilon qv u1 u2 = k)
    ∧ (∀ (ag : QLearningAgent) (st : Nat × Nat),
        ag.act st u1 u2 = policyAct ag.epsilon (fun a => ag.q st.1 st.2 a) u1 u2)
    ∧ (∀ (agS : SignalQAgent) (gs : Nat × Nat),
        agS.act gs u1 u2
          = policyAct agS.epsilon (fun a => agS.q (agS.stateIndex gs) a) u1 u2) := by
  have hnum : (NUM_ACTIONS : ℚ) = ((4 : Nat) : ℚ) := by norm_num [NUM_ACTIONS]
  refine ⟨?_, ?_, ?_, ?_, ?_⟩
  · intro hexp
    constructor
    · intro qv2
      rw [policyAct, policyAct, if_pos hexp, if_pos hexp]
    · intro k hk hka hkb
      rw [policyAct, if_pos hexp, hnum]
      exact floorNat_interval u2 4 k hk hka hkb
  · intro hexploit
    have hnotlt : ¬ u1 < epsilon := not_lt.mpr hexploit
    obtain ⟨_, _, hne, hnd⟩ := bestActions_spec qv
    refine ⟨bestActions_mem qv, hnd, hne, ?_⟩
    intro i hi hia hib
    have hfl : floorNat (u2 * ((bestActionsOf qv).2.length : ℚ)) = i :=
      floorNat_interval u2 _ i hi hia hib
    rw [policyAct, if_neg hnotlt]
    show (bestActionsOf qv).2.getD (floorNat (u2 * ((bestActionsOf qv).2.length : ℚ))) 0
      = (bestActionsOf qv).2.getD i 0
    rw [hfl]
  · intro hzero heps k hk hka hkb
    have hexp : u1 < epsilon ∨ epsilon ≤ u1 := lt_or_ge u1 epsilon
    rcases hexp with h | h
    · rw [policyAct, if_pos h, hnum]
      exact floorNat_interval u2 4 k hk hka hkb
    · have hfl : floorNat (u2 * ((4 : Nat) : ℚ)) = k := floorNat_interval u2 4 k hk hka hkb
      rw [policyAct, if_neg (not_lt.mpr h)]
      show (bestActionsOf qv).2.getD (floorNat (u2 * ((bestActionsOf qv).2.length : ℚ))) 0 = k
      rw [bestActions_all_zero qv hzero]
      have hlen : ((([0, 1, 2, 3] : List Nat)).length : ℚ) = ((4 : Nat) : ℚ) := by norm_num
      show ([0, 1, 2, 3] : List Nat).getD
        (floorNat (u2 * ((([0, 1, 2, 3] : List Nat)).length : ℚ))) 0 = k
      rw [hlen, hfl]
      interval_cases k <;> rfl
  · intro ag st
    rfl
  · intro agS gs
    rfl

/-- C3 witness: the policy theorem applied at a concrete instance. -/
theorem c3_epsilon_greedy_witness :
    (0 : ℚ) ≤ 1/3 ∧ (1/3 : ℚ) < 1 ∧
      ((1/2 : ℚ) ≤ 1/2 →
        (∀ a, a ∈ (bestActionsOf (fun _ => 0)).2
            ↔ (a < 4 ∧ ∀ b, b < 4 → (fun _ => (0 : ℚ)) b ≤ (fun _ => (0 : ℚ)) a))
        ∧ (bestActionsOf (fun _ => (0 : ℚ))).2.Nodup
        ∧ (bestActionsOf (fun _ => (0 : ℚ))).2 ≠ []
        ∧ ∀ i : Nat, i < (bestActionsOf (fun _ => (0 : ℚ))).2.length →
            (i : ℚ) / ((bestActionsOf (fun _ => (0 : ℚ))).2.length : ℚ) ≤ 1/3 →
            (1/3 : ℚ) < ((i : ℚ) + 1) / ((bestActionsOf (fun _ => (0 : ℚ))).2.length : ℚ) →
            policyAct (1/2) (fun _ => (0 : ℚ)) (1/2) (1/3)
              = (bestActionsOf (fun _ => (0 : ℚ))).2.getD i 0) := by
  refine ⟨by norm_num, by norm_num, ?_⟩
  exact (c3_epsilon_greedy (1/2) (fun _ => (0 : ℚ)) (1/2) (1/3)
    (by norm_num) (by norm_num) (by norm_num)).2.1

/-- C10: for draws in [0,1) both act operations return an action below 4, and
the tie-break candidate list is never empty (it is seeded with action 0);
act is embedded as a pure read: actStep leaves the agent unchanged. -/
theorem c10_act_safe (ag : QLearningAgent) (st : Nat × Nat)
    (agS : SignalQAgent) (gs : Nat × Nat) (u1 u2 : ℚ)
    (hu2a : 0 ≤ u2) (hu2b : u2 < 1) :
    ag.act st u1 u2 < 4
    ∧ agS.act gs u1 u2 < 4
    ∧ (∀ qv : Nat → ℚ, (bestActionsOf qv).2 ≠ []) := by
  refine ⟨policyAct_lt _ _ u1 u2 hu2a hu2b, policyAct_lt _ _ u1 u2 hu2a hu2b, ?_⟩
  intro qv
  exact (bestActions_spec qv).2.2.1

/-- C10 witness: act at a concrete agent and draws. -/
theorem c10_act_safe_witness :
    (0 : ℚ) ≤ 2/3 ∧ (2/3 : ℚ) < 1 ∧
      (QLearningAgent.init 2 2 (1/10) (19/20) (1/10)).act (0, 1) (1/20) (2/3) < 4 :=
  ⟨by norm_num, by norm_num,
    (c10_act_safe (QLearningAgent.init 2 2 (1/10) (19/20) (1/10)) (0, 1)
      (SignalQAgent.init (SignalField.init [[2]]) (1/10) (19/20) (1/10) (1/20)) (0, 0)
      (1/20) (2/3) (by norm_num) (by norm_num)).1⟩

/-- C2: learn sets the entry addressed by (state, action) to
Q + alpha * (target - Q), where target is reward when done and
reward + gamma * max over the next state's four values otherwise; for done =
true the right-hand side reads only the (state, action) entry, so the result
is independent of the values stored at the next state. Stated for both the
positional and the perceptual agent. -/
theorem c2_learn_update (ag : QLearningAgent) (state : Nat × Nat) (action : Nat)
    (reward : ℚ) (nextState : Nat × Nat) (done : Bool)
    (agS : SignalQAgent) (gs ngs : Nat × Nat) (actionS : Nat) (rewardS : ℚ)
    (doneS : Bool) :
    (ag.learn state action reward nextState done).q state.1 state.2 action
      = ag.q state.1 state.2 action
        + ag.alpha *
          ((if done then reward
            else reward + ag.gamma * max4 (ag.q nextState.1 nextState.2 0)
              (ag.q nextState.1 nextState.2 1) (ag.q nextState.1 nextState.2 2)
              (ag.q nextState.1 nextState.2 3))
            - ag.q state.1 state.2 action)
    ∧ (agS.learn gs actionS rewardS ngs doneS).q (agS.stateIndex gs) actionS
      = agS.q (agS.stateIndex gs) actionS
        + agS.alpha *
          ((if doneS then rewardS
            else rewardS + agS.gamma * max4 (agS.q (agS.stateIndex ngs) 0)
              (agS.q (agS.stateIndex ngs) 1) (agS.q (agS.stateIndex ngs) 2)
              (agS.q (agS.stateIndex ngs) 3))
            - agS.q (agS.stateIndex gs) actionS) := by
  constructor
  · simp [QLearningAgent.learn]
  · simp [SignalQAgent.learn]

/-- C4: stateIndex is the base-3 combination up*27 + right*9 + down*3 + left
of the four direction bins (0 when delta < -threshold, 2 when
delta > threshold, 1 otherwise, the comparisons strict so deltas exactly at
the threshold are neutral), always lies below 81, agrees between any two
positions with identical bins, and is a pure function of its inputs. -/
theorem c4_state_index (ag : SignalQAgent) (p : Nat × Nat) :
    ag.stateIndex p
      = binDelta ag.threshold (dirDelta ag p 0) * 27
        + binDelta ag.threshold (dirDelta ag p 1) * 9
        + binDelta ag.threshold (dirDelta ag p 2) * 3
        + binDelta ag.threshold (dirDelta ag p 3) * 1
    ∧ ag.stateIndex p < 81
    ∧ (∀ p2 : Nat × Nat,
        (∀ d, d < 4 →
          binDelta ag.threshold (dirDelta ag p d)
            = binDelta ag.threshold (dirDelta ag p2 d)) →
        ag.stateIndex p = ag.stateIndex p2)
    ∧ (0 ≤ ag.threshold →
        binDelta ag.threshold ag.threshold = 1
        ∧ binDelta ag.threshold (-ag.threshold) = 1) := by
  have hbin : ∀ t x : ℚ, binDelta t x ≤ 2 := by
    intro t x
    rw [binDelta]
    split
    · omega
    · split <;> omega
  have hform : ∀ ag2 : SignalQAgent, ∀ p2 : Nat × Nat,
      ag2.stateIndex p2
        = binDelta ag2.threshold (dirDelta ag2 p2 0) * 27
          + binDelta ag2.threshold (dirDelta ag2 p2 1) * 9
          + binDelta ag2.threshold (dirDelta ag2 p2 2) * 3
          + binDelta ag2.threshold (dirDelta ag2 p2 3) * 1 := by
    intro ag2 p2
    have hr : List.range 4 = [0, 1, 2, 3] := by decide
    rw [SignalQAgent.stateIndex, hr]
    simp only [List.foldl_cons, List.foldl_nil, binDelta, dirDelta, multipliers]
    norm_num
  refine ⟨hform ag p, ?_, ?_, ?_⟩
  · rw [hform ag p]
    have h0 := hbin ag.threshold (dirDelta ag p 0)
    have h1 := hbin ag.threshold (dirDelta ag p 1)
    have h2 := hbin ag.threshold (dirDelta ag p 2)
    have h3 := hbin ag.threshold (dirDelta ag p 3)
    omega
  · intro p2 hbins
    rw [hform ag p, hform ag p2, hbins 0 (by norm_num), hbins 1 (by norm_num),
      hbins 2 (by norm_num), hbins 3 (by norm_num)]
  · intro ht
    constructor
    · rw [binDelta]
      rw [if_neg (by linarith), if_neg (by exact lt_irrefl _)]
    · rw [binDelta]
      rw [if_neg (by exact lt_irrefl _), if_neg (by linarith)]

/-- C4 witness: the state index theorem applied at a concrete agent, with the
boundary-delta conjunct exercised. -/
theorem c4_state_index_witness :
    (SignalQAgent.init (SignalField.init [[2]]) (1/10) (19/20) (1/10) (1/20)).stateIndex
        (0, 0) < 81
    ∧ binDelta (SignalQAgent.init (SignalField.init [[2]]) (1/10) (19/20) (1/10)
        (1/20)).threshold
        (SignalQAgent.init (SignalField.init [[2]]) (1/10) (19/20) (1/10)
          (1/20)).threshold = 1 :=
  ⟨(c4_state_index (SignalQAgent.init (SignalField.init [[2]]) (1/10) (19/20) (1/10)
      (1/20)) (0, 0)).2.1,
    ((c4_state_index (SignalQAgent.init (SignalField.init [[2]]) (1/10) (19/20) (1/10)
      (1/20)) (0, 0)).2.2.2 (by norm_num [SignalQAgent.init])).1⟩

/-- C8: after resetQ every in-bounds table entry reads zero (the positional
agent through getQ, the perceptual agent at every index below 81), and the
hyperparameters are unchanged. -/
theorem c8_resetQ (ag : QLearningAgent) (r c : Nat) (hr : r < ag.rows)
    (hc : c < ag.cols) (agS : SignalQAgent) (s a : Nat) (hs : s < 81) :
    ag.resetQ.getQ r c = [0, 0, 0, 0]
    ∧ ag.resetQ.alpha = ag.alpha ∧ ag.resetQ.gamma = ag.gamma
    ∧ ag.resetQ.epsilon = ag.epsilon
    ∧ ag.resetQ.rows = ag.rows ∧ ag.resetQ.cols = ag.cols
    ∧ agS.resetQ.q s a = 0
    ∧ agS.resetQ.alpha = agS.alpha ∧ agS.resetQ.gamma = agS.gamma
    ∧ agS.resetQ.epsilon = agS.epsilon
    ∧ agS.resetQ.threshold = agS.threshold := by
  refine ⟨?_, rfl, rfl, rfl, rfl, rfl, ?_, rfl, rfl, rfl, rfl⟩
  · simp [QLearningAgent.resetQ, QLearningAgent.getQ, hr, hc]
  · simp [SignalQAgent.resetQ, SignalQAgent.numStates, hs]

/-- C8 witness: resetQ read back at a concrete in-bounds entry. -/
theorem c8_resetQ_witness :
    1 < (QLearningAgent.init 2 3 (1/10) (19/20) (1/10)).rows ∧
      (QLearningAgent.init 2 3 (1/10) (19/20) (1/10)).resetQ.getQ 1 2 = [0, 0, 0, 0] :=
  ⟨by decide,
    (c8_resetQ (QLearningAgent.init 2 3 (1/10) (19/20) (1/10)) 1 2 (by decide) (by decide)
      (SignalQAgent.init (SignalField.init [[2]]) (1/10) (19/20) (1/10) (1/20)) 80 3
      (by decide)).1⟩

/-- C9: learn writes only the entry addressed by the current state and action
(and increments the diagnostic counter); every other table entry and every
hyperparameter is unchanged, for both agents. -/
theorem c9_learn_frame (ag : QLearningAgent) (state : Nat × Nat) (action : Nat)
    (reward : ℚ) (nextState : Nat × Nat) (done : Bool) (r2 c2 a2 : Nat)
    (h : ¬(r2 = state.1 ∧ c2 = state.2 ∧ a2 = action))
    (agS : SignalQAgent) (gs ngs : Nat × Nat) (actionS : Nat) (rewardS : ℚ)
    (doneS : Bool) (s2 b2 : Nat)
    (h2 : ¬(s2 = agS.stateIndex gs ∧ b2 = actionS)) :
    (ag.learn state action reward nextState done).q r2 c2 a2 = ag.q r2 c2 a2
    ∧ (ag.learn state action reward nextState done).rows = ag.rows
    ∧ (ag.learn state action reward nextState done).cols = ag.cols
    ∧ (ag.learn state action reward nextState done).alpha = ag.alpha
    ∧ (ag.learn state action reward nextState done).gamma = ag.gamma
    ∧ (ag.learn state action reward nextState done).epsilon = ag.epsilon
    ∧ (ag.learn state action reward nextState done).totalUpdates
        = ag.totalUpdates + 1
    ∧ (agS.learn gs actionS rewardS ngs doneS).q s2 b2 = agS.q s2 b2
    ∧ (agS.learn gs actionS rewardS ngs doneS).alpha = agS.alpha
    ∧ (agS.learn gs actionS rewardS ngs doneS).gamma = agS.gamma
    ∧ (agS.learn gs actionS rewardS ngs doneS).epsilon = agS.epsilon
    ∧ (agS.learn gs actionS rewardS ngs doneS).threshold = agS.threshold
    ∧ (agS.learn gs actionS rewardS ngs doneS).signalField = agS.signalField
    ∧ (agS.learn gs actionS rewardS ngs doneS).totalUpdates
        = agS.totalUpdates + 1 := by
  refine ⟨?_, rfl, rfl, rfl, rfl, rfl, rfl, ?_, rfl, rfl, rfl, rfl, rfl, rfl⟩
  · rw [QLearningAgent.learn]
    simp only []
    rw [if_neg h]
  · rw [SignalQAgent.learn]
    simp only []
    rw [if_neg h2]

/-- C5: the four gradient entries, in order up, right, down, left: the
neighbor's field value when the neighbor is in bounds and not a wall,
otherwise the cell's own read value (so corners and walls read as the cell
itself). -/
theorem c5_gradient_boundary (sf : SignalField) (row col : Nat)
    (hr : row < rowsOf sf.layout) (hc : col < colsOf sf.layout) :
    (sf.gradient row col).getD 0 0
      = (if 0 < row ∧ cellAt sf.layout (row - 1) col ≠ CELL_WALL
          then sf.field (row - 1) col else sf.read row col)
    ∧ (sf.gradient row col).getD 1 0
      = (if col + 1 < colsOf sf.layout ∧ cellAt sf.layout row (col + 1) ≠ CELL_WALL
          then sf.field row (col + 1) else sf.read row col)
    ∧ (sf.gradient row col).getD 2 0
      = (if row + 1 < rowsOf sf.layout ∧ cellAt sf.layout (row + 1) col ≠ CELL_WALL
          then sf.field (row + 1) col else sf.read row col)
    ∧ (sf.gradient row col).getD 3 0
      = (if 0 < col ∧ cellAt sf.layout row (col - 1) ≠ CELL_WALL
          then sf.field row (col - 1) else sf.read row col) := by
  have hgrad : sf.gradient row col
      = [if (row : Int) + -1 < 0 ∨ (rowsOf sf.layout : Int) ≤ (row : Int) + -1
            ∨ (col : Int) + 0 < 0 ∨ (colsOf sf.layout : Int) ≤ (col : Int) + 0 then
            sf.field row col
          else if cellAt sf.layout ((row : Int) + -1).toNat ((col : Int) + 0).toNat
              = CELL_WALL then sf.field row col
          else sf.field ((row : Int) + -1).toNat ((col : Int) + 0).toNat,
          if (row : Int) + 0 < 0 ∨ (rowsOf sf.layout : Int) ≤ (row : Int) + 0
            ∨ (col : Int) + 1 < 0 ∨ (colsOf sf.layout : Int) ≤ (col : Int) + 1 then
            sf.field row col
          else if cellAt sf.layout ((row : Int) + 0).toNat ((col : Int) + 1).toNat
              = CELL_WALL then sf.field row col
          else sf.field ((row : Int) + 0).toNat ((col : Int) + 1).toNat,
          if (row : Int) + 1 < 0 ∨ (rowsOf sf.layout : Int) ≤ (row : Int) + 1
            ∨ (col : Int) + 0 < 0 ∨ (colsOf sf.layout : Int) ≤ (col : Int) + 0 then
            sf.field row col
          else if cellAt sf.layout ((row : Int) + 1).toNat ((col : Int) + 0).toNat
              = CELL_WALL then sf.field row col
          else sf.field ((row : Int) + 1).toNat ((col : Int) + 0).toNat,
          if (row : Int) + 0 < 0 ∨ (rowsOf sf.layout : Int) ≤ (row : Int) + 0
            ∨ (col : Int) + -1 < 0 ∨ (colsOf sf.layout : Int) ≤ (col : Int) + -1 then
            sf.field row col
          else if cellAt sf.layout ((row : Int) + 0).toNat ((col : Int) + -1).toNat
              = CELL_WALL then sf.field row col
          else sf.field ((row : Int) + 0).toNat ((col : Int) + -1).toNat] := by
    rw [SignalField.gradient, DELTAS]
    rfl
  rw [hgrad]
  have hrow : ((row : Int) + 0).toNat = row := by omega
  have hcol : ((col : Int) + 0).toNat = col := by omega
  have hrowp : ((row : Int) + 1).toNat = row + 1 := by omega
  have hcolp : ((col : Int) + 1).toNat = col + 1 := by omega
  refine ⟨?_, ?_, ?_, ?_⟩
  · show (if (row : Int) + -1 < 0 ∨ _ ∨ _ ∨ _ then _ else _) = _
    by_cases h0 : row = 0
    · rw [if_pos (by omega : (row : Int) + -1 < 0 ∨ (rowsOf sf.layout : Int) ≤ (row : Int) + -1
        ∨ (col : Int) + 0 < 0 ∨ (colsOf sf.layout : Int) ≤ (col : Int) + 0)]
      rw [if_neg (fun hcon => absurd hcon.1 (by omega))]
      rfl
    · have htn : ((row : Int) + -1).toNat = row - 1 := by omega
      rw [if_neg (by omega : ¬((row : Int) + -1 < 0 ∨ (rowsOf sf.layout : Int) ≤ (row : Int) + -1
        ∨ (col : Int) + 0 < 0 ∨ (colsOf sf.layout : Int) ≤ (col : Int) + 0)), htn, hcol]
      by_cases hw : cellAt sf.layout (row - 1) col = CELL_WALL
      · rw [if_pos hw, if_neg (by simp [hw])]
        rfl
      · rw [if_neg hw, if_pos ⟨by omega, hw⟩]
  · show (if (row : Int) + 0 < 0 ∨ _ ∨ _ ∨ _ then _ else _) = _
    by_cases hlast : col + 1 < colsOf sf.layout
    · rw [if_neg (by omega : ¬((row : Int) + 0 < 0 ∨ (rowsOf sf.layout : Int) ≤ (row : Int) + 0
        ∨ (col : Int) + 1 < 0 ∨ (colsOf sf.layout : Int) ≤ (col : Int) + 1)), hrow, hcolp]
      by_cases hw : cellAt sf.layout row (col + 1) = CELL_WALL
      · rw [if_pos hw, if_neg (by simp [hw])]
        rfl
      · rw [if_neg hw, if_pos ⟨hlast, hw⟩]
    · rw [if_pos (by omega : (row : Int) + 0 < 0 ∨ (rowsOf sf.layout : Int) ≤ (row : Int) + 0
        ∨ (col : Int) + 1 < 0 ∨ (colsOf sf.layout : Int) ≤ (col : Int) + 1)]
      rw [if_neg (by omega : ¬(col + 1 < colsOf sf.layout
        ∧ cellAt sf.layout row (col + 1) ≠ CELL_WALL))]
      rfl
  · show (if (row : Int) + 1 < 0 ∨ _ ∨ _ ∨ _ then _ else _) = _
    by_cases hlast : row + 1 < rowsOf sf.layout
    · rw [if_neg (by omega : ¬((row : Int) + 1 < 0 ∨ (rowsOf sf.layout : Int) ≤ (row : Int) + 1
        ∨ (col : Int) + 0 < 0 ∨ (colsOf sf.layout : Int) ≤ (col : Int) + 0)), hrowp, hcol]
      by_cases hw : cellAt sf.layout (row + 1) col = CELL_WALL
      · rw [if_pos hw, if_neg (by simp [hw])]
        rfl
      · rw [if_neg hw, if_pos ⟨hlast, hw⟩]
    · rw [if_pos (by omega : (row : Int) + 1 < 0 ∨ (rowsOf sf.layout : Int) ≤ (row : Int) + 1
        ∨ (col : Int) + 0 < 0 ∨ (colsOf sf.layout : Int) ≤ (col : Int) + 0)]
      rw [if_neg (by omega : ¬(row + 1 < rowsOf sf.layout
        ∧ cellAt sf.layout (row + 1) col ≠ CELL_WALL))]
      rfl
  · show (if (row : Int) + 0 < 0 ∨ _ ∨ _ ∨ _ then _ else _) = _
    by_cases h0 : col = 0
    · rw [if_pos (by omega : (row : Int) + 0 < 0 ∨ (rowsOf sf.layout : Int) ≤ (row : Int) + 0
        ∨ (col : Int) + -1 < 0 ∨ (colsOf sf.layout : Int) ≤ (col : Int) + -1)]
      rw [if_neg (fun hcon => absurd hcon.1 (by omega))]
      rfl
    · have htn : ((col : Int) + -1).toNat = col - 1 := by omega
      rw [if_neg (by omega : ¬((row : Int) + 0 < 0 ∨ (rowsOf sf.layout : Int) ≤ (row : Int) + 0
        ∨ (col : Int) + -1 < 0 ∨ (colsOf sf.layout : Int) ≤ (col : Int) + -1)), hrow, htn]
      by_cases hw : cellAt sf.layout row (col - 1) = CELL_WALL
      · rw [if_pos hw, if_neg (by simp [hw])]
        rfl
      · rw [if_neg hw, if_pos ⟨by omega, hw⟩]

/-- C5 witness: the gradient of a concrete field at a corner next to a wall. -/
theorem c5_gradient_boundary_witness :
    0 < rowsOf (SignalField.init [[2, 1], [0, 0]]).layout
    ∧ 1 < colsOf (SignalField.init [[2, 1], [0, 0]]).layout
    ∧ ((SignalField.init [[2, 1], [0, 0]]).gradient 0 0).getD 0 0
        = (if 0 < 0 ∧ cellAt (SignalField.init [[2, 1], [0, 0]]).layout (0 - 1) 0 ≠ CELL_WALL
            then (SignalField.init [[2, 1], [0, 0]]).field (0 - 1) 0
            else (SignalField.init [[2, 1], [0, 0]]).read 0 0) :=
  ⟨by decide, by decide,
    (c5_gradient_boundary (SignalField.init [[2, 1], [0, 0]]) 0 0
      (by decide) (by decide)).1⟩

/-! The field computation as a sum of per-emitter contributions. -/

theorem addEmitter_eq (layout : Layout) (f : Nat → Nat → ℚ) (em : Emitter)
    (r c : Nat) : addEmitter layout f em r c = f r c + contribOf layout em r c := by
  by_cases hcond : r < rowsOf layout ∧ c < colsOf layout
      ∧ 0 ≤ bfsDistances layout em.row em.col r c
  · simp [addEmitter, contribOf, hcond]
  · simp [addEmitter, contribOf, hcond]

theorem foldl_addEmitter (layout : Layout) (ems : List Emitter) :
    ∀ (f : Nat → Nat → ℚ) (r c : Nat),
      (ems.foldl (addEmitter layout) f) r c
        = f r c + ((ems.map (fun em => contribOf layout em r c)).sum) := by
  induction ems with
  | nil => simp
  | cons em ems ih =>
      intro f r c
      simp only [List.foldl_cons, List.map_cons, List.sum_cons]
      rw [ih, addEmitter_eq]
      ring

theorem computeField_eq (layout : Layout) (ems : List Emitter)
    (old : Nat → Nat → ℚ) (r c : Nat) :
    computeField layout ems old r c
      = (if r < rowsOf layout ∧ c < colsOf layout then 0 else old r c)
        + ((ems.map (fun em => contribOf layout em r c)).sum) := by
  rw [computeField, foldl_addEmitter]

theorem contrib_sum_out_of_bounds (layout : Layout) (ems : List Emitter)
    (r c : Nat) (hout : ¬(r < rowsOf layout ∧ c < colsOf layout)) :
    ((ems.map (fun em => contribOf layout em r c)).sum) = 0 := by
  apply List.sum_eq_zero
  intro x hx
  obtain ⟨em, _, hem⟩ := List.mem_map.mp hx
  rw [← hem, contribOf, if_neg]
  intro hcon
  exact hout ⟨hcon.1, hcon.2.1⟩

theorem computeField_indep (layout : Layout) (ems : List Emitter)
    (f1 f2 : Nat → Nat → ℚ) (r c : Nat) (hr : r < rowsOf layout)
    (hc : c < colsOf layout) :
    computeField layout ems f1 r c = computeField layout ems f2 r c := by
  rw [computeField_eq, computeField_eq, if_pos ⟨hr, hc⟩, if_pos ⟨hr, hc⟩]

theorem computeField_computeField (layout : Layout) (ems : List Emitter)
    (f : Nat → Nat → ℚ) :
    computeField layout ems (computeField layout ems f)
      = computeField layout ems f := by
  funext r c
  by_cases hin : r < rowsOf layout ∧ c < colsOf layout
  · exact computeField_indep layout ems _ f r c hin.1 hin.2
  · simp only [computeField_eq, if_neg hin,
      contrib_sum_out_of_bounds layout ems r c hin]
    ring

theorem compute_idem (sf : SignalField) : sf.compute.compute = sf.compute := by
  show SignalField.mk sf.layout sf.emitters
      (computeField sf.layout sf.emitters (computeField sf.layout sf.emitters sf.field))
    = SignalField.mk sf.layout sf.emitters (computeField sf.layout sf.emitters sf.field)
  rw [computeField_computeField]

/-- C6: with the same layout, the field computed from the emitter list A ++ B
equals, at every in-bounds cell, the sum of the field computed from A alone
and the field computed from B alone, whatever fields the three computations
start from. -/
theorem c6_superposition (layout : Layout) (A B : List Emitter)
    (f1 f2 f3 : Nat → Nat → ℚ) (r c : Nat) (hr : r < rowsOf layout)
    (hc : c < colsOf layout) :
    (SignalField.compute ⟨layout, A ++ B, f1⟩).field r c
      = (SignalField.compute ⟨layout, A, f2⟩).field r c
        + (SignalField.compute ⟨layout, B, f3⟩).field r c := by
  show computeField layout (A ++ B) f1 r c
    = computeField layout A f2 r c + computeField layout B f3 r c
  rw [computeField_eq, computeField_eq, computeField_eq, if_pos ⟨hr, hc⟩,
    if_pos ⟨hr, hc⟩, if_pos ⟨hr, hc⟩, List.map_append, List.sum_append]
  ring

/-- C6 witness: superposition on a concrete 1x3 layout with two emitters. -/
theorem c6_superposition_witness :
    0 < rowsOf [[2, 0, 3]] ∧ 1 < colsOf [[2, 0, 3]] ∧
      (SignalField.compute ⟨[[2, 0, 3]],
          [Emitter.mk 0 0 1, Emitter.mk 0 2 (-1)], fun _ _ => 0⟩).field 0 1
        = (SignalField.compute ⟨[[2, 0, 3]], [Emitter.mk 0 0 1], fun _ _ => 0⟩).field 0 1
          + (SignalField.compute ⟨[[2, 0, 3]], [Emitter.mk 0 2 (-1)],
              fun _ _ => 0⟩).field 0 1 :=
  ⟨by decide, by decide,
    c6_superposition [[2, 0, 3]] [Emitter.mk 0 0 1] [Emitter.mk 0 2 (-1)]
      (fun _ _ => 0) (fun _ _ => 0) (fun _ _ => 0) 0 1 (by decide) (by decide)⟩

/-- C7: compute is idempotent and deterministic: any number of repeated
compute() calls gives the field of a single compute(), and at in-bounds cells
the computed entry does not depend on the previous field contents. -/
theorem c7_compute_deterministic_idempotent (sf : SignalField) (n : Nat)
    (r c : Nat) :
    ((SignalField.compute)^[n + 1] sf).field r c = sf.compute.field r c
    ∧ (∀ (layout : Layout) (ems : List Emitter) (f1 f2 : Nat → Nat → ℚ),
        r < rowsOf layout → c < colsOf layout →
        computeField layout ems f1 r c = computeField layout ems f2 r c) := by
  constructor
  · have hiter : ∀ m : Nat, (SignalField.compute)^[m + 1] sf = sf.compute := by
      intro m
      induction m with
      | zero => rfl
      | succ k ih =>
          rw [Function.iterate_succ_apply', ih]
          exact compute_idem sf
    rw [hiter n]
  · intro layout ems f1 f2 hr hc
    exact computeField_indep layout ems f1 f2 r c hr hc

/-- C7 witness: three compute() calls on a concrete field agree with one, and
the computed entry ignores the previous field. -/
theorem c7_compute_witness :
    ((SignalField.compute)^[3] (SignalField.init [[2, 0]])).field 0 1
      = (SignalField.init [[2, 0]]).compute.field 0 1
    ∧ computeField [[2, 0]] (emittersOf [[2, 0]]) (fun _ _ => 0) 0 1
      = computeField [[2, 0]] (emittersOf [[2, 0]]) (fun _ _ => 5) 0 1 :=
  ⟨(c7_compute_deterministic_idempotent (SignalField.init [[2, 0]]) 2 0 1).1,
    (c7_compute_deterministic_idempotent (SignalField.init [[2, 0]]) 2 0 1).2
      [[2, 0]] (emittersOf [[2, 0]]) (fun _ _ => 0) (fun _ _ => 5)
      (by decide) (by decide)⟩
theorem c9_learn_frame_witness :
    ((QLearningAgent.init 2 2 (1/10) (19/20) (1/10)).learn (0, 0) 1 (1/4) (0, 1)
        false).q 1 0 3 = (QLearningAgent.init 2 2 (1/10) (19/20) (1/10)).q 1 0 3 :=
  (c9_learn_frame (QLearningAgent.init 2 2 (1/10) (19/20) (1/10)) (0, 0) 1 (1/4)
    (0, 1) false 1 0 3 (by decide)
    (SignalQAgent.init (SignalField.init [[2]]) (1/10) (19/20) (1/10) (1/20))
    (0, 0) (0, 0) 0 (1/4) true 0 1 (fun hcon => Nat.one_ne_zero hcon.2)).1

/-! BFS correctness: the distances computed by the queue-based loop are the
shortest walk distances of the grid. -/

theorem updDist_self (f : Nat → Nat → Int) (r c : Nat) (v : Int) :
    updDist f r c v r c = v := by simp [updDist]

theorem updDist_ne (f : Nat → Nat → Int) (r c : Nat) (v : Int) (r2 c2 : Nat)
    (h : ¬(r2 = r ∧ c2 = c)) : updDist f r c v r2 c2 = f r2 c2 := by
  simp only [updDist, if_neg h]

theorem tryVisit_eq (layout : Layout) (rc : Nat × Nat) (d : Int)
    (acc : (Nat → Nat → Int) × List (Nat × Nat)) (delta : Int × Int) :
    tryVisit layout rc d acc delta
      = if (rc.1 : Int) + delta.1 < 0 ∨ (rowsOf layout : Int) ≤ (rc.1 : Int) + delta.1
          ∨ (rc.2 : Int) + delta.2 < 0 ∨ (colsOf layout : Int) ≤ (rc.2 : Int) + delta.2
        then acc
        else if cellAt layout ((rc.1 : Int) + delta.1).toNat
            ((rc.2 : Int) + delta.2).toNat = CELL_WALL then acc
        else if 0 ≤ acc.1 ((rc.1 : Int) + delta.1).toNat ((rc.2 : Int) + delta.2).toNat
          then acc
        else (updDist acc.1 ((rc.1 : Int) + delta.1).toNat
            ((rc.2 : Int) + delta.2).toNat (d + 1),
          acc.2 ++ [(((rc.1 : Int) + delta.1).toNat, ((rc.2 : Int) + delta.2).toNat)]) :=
  rfl

theorem stepVia_nil (layout : Layout) (rc q : Nat × Nat) :
    ¬ stepVia layout [] rc q := by
  rintro ⟨_, delta, hmem, _⟩
  exact absurd hmem (List.not_mem_nil delta)

theorem stepVia_cons (layout : Layout) (ds : List (Int × Int)) (delta : Int × Int)
    (rc q : Nat × Nat) :
    stepVia layout (delta :: ds) rc q
      ↔ ((okCell layout q ∧ (rc.1 : Int) + delta.1 = q.1
            ∧ (rc.2 : Int) + delta.2 = q.2)
        ∨ stepVia layout ds rc q) := by
  constructor
  · rintro ⟨hok, d2, hmem, hco⟩
    rcases List.mem_cons.mp hmem with h | h
    · rw [h] at hco
      exact Or.inl ⟨hok, hco⟩
    · exact Or.inr ⟨hok, d2, h, hco⟩
  · rintro (⟨hok, hco⟩ | ⟨hok, d2, hmem, hco⟩)
    · exact ⟨hok, delta, List.mem_cons_self delta ds, hco⟩
    · exact ⟨hok, d2, List.mem_cons_of_mem delta hmem, hco⟩

theorem stepVia_sub (layout : Layout) (ds : List (Int × Int)) (delta : Int × Int)
    (rc q : Nat × Nat) (h : stepVia layout ds rc q) :
    stepVia layout (delta :: ds) rc q :=
  (stepVia_cons layout ds delta rc q).mpr (Or.inr h)

theorem tryVisit_fold_spec (layout : Layout) (rc : Nat × Nat) (d : Int)
    (hd : 0 ≤ d) :
    ∀ (ds : List (Int × Int)) (dist : Nat → Nat → Int) (qu : List (Nat × Nat)),
      (∀ p : Nat × Nat, p ∈ qu ↔ 0 ≤ dist p.1 p.2) →
      qu.Nodup →
      (∀ r c, 0 ≤ dist r c → dist r c ≤ d + 1) →
      FoldSpec layout rc d ds dist qu (ds.foldl (tryVisit layout rc d) (dist, qu)) := by
  intro ds
  induction ds with
  | nil =>
      intro dist qu hmem hnd hb
      refine ⟨?_, ?_, ?_, ?_, ?_, ?_, ?_⟩
      · intro r c _
        rfl
      · intro r c
        exact Or.inl rfl
      · exact ⟨[], by simp, by simp⟩
      · exact hmem
      · exact hnd
      · intro q hq
        exact absurd hq (stepVia_nil layout rc q)
      · exact hb
  | cons delta ds ih =>
      intro dist qu hmem hnd hb
      rw [List.foldl_cons, tryVisit_eq]
      by_cases hg1 : (rc.1 : Int) + delta.1 < 0
          ∨ (rowsOf layout : Int) ≤ (rc.1 : Int) + delta.1
          ∨ (rc.2 : Int) + delta.2 < 0
          ∨ (colsOf layout : Int) ≤ (rc.2 : Int) + delta.2
      · rw [if_pos hg1]
        have h := ih dist qu hmem hnd hb
        refine ⟨h.preserve, ?_, ?_, h.mem_iff, h.nodup, ?_, h.bound⟩
        · intro r c
          rcases h.values r c with hv | hv
          · exact Or.inl hv
          · exact Or.inr ⟨hv.1, hv.2.1, stepVia_sub layout ds delta rc (r, c) hv.2.2⟩
        · obtain ⟨ext, he, hp⟩ := h.queue_ext
          exact ⟨ext, he, fun p hpe =>
            ⟨(hp p hpe).1, stepVia_sub layout ds delta rc p (hp p hpe).2⟩⟩
        · intro q hq
          rcases (stepVia_cons layout ds delta rc q).mp hq with ⟨hok, hco1, hco2⟩ | hq2
          · exfalso
            obtain ⟨hqr, hqc, _⟩ := hok
            omega
          · exact h.cover q hq2
      · rw [if_neg hg1]
        by_cases hg2 : cellAt layout ((rc.1 : Int) + delta.1).toNat
            ((rc.2 : Int) + delta.2).toNat = CELL_WALL
        · rw [if_pos hg2]
          have h := ih dist qu hmem hnd hb
          refine ⟨h.preserve, ?_, ?_, h.mem_iff, h.nodup, ?_, h.bound⟩
          · intro r c
            rcases h.values r c with hv | hv
            · exact Or.inl hv
            · exact Or.inr ⟨hv.1, hv.2.1, stepVia_sub layout ds delta rc (r, c) hv.2.2⟩
          · obtain ⟨ext, he, hp⟩ := h.queue_ext
            exact ⟨ext, he, fun p hpe =>
              ⟨(hp p hpe).1, stepVia_sub layout ds delta rc p (hp p hpe).2⟩⟩
          · intro q hq
            rcases (stepVia_cons layout ds delta rc q).mp hq with ⟨hok, hco1, hco2⟩ | hq2
            · exfalso
              obtain ⟨hqr, hqc, hqw⟩ := hok
              have e1 : ((rc.1 : Int) + delta.1).toNat = q.1 := by omega
              have e2 : ((rc.2 : Int) + delta.2).toNat = q.2 := by omega
              rw [e1, e2] at hg2
              exact hqw hg2
            · exact h.cover q hq2
        · rw [if_neg hg2]
          by_cases hg3 : 0 ≤ dist ((rc.1 : Int) + delta.1).toNat
              ((rc.2 : Int) + delta.2).toNat
          · rw [if_pos hg3]
            have h := ih dist qu hmem hnd hb
            refine ⟨h.preserve, ?_, ?_, h.mem_iff, h.nodup, ?_, h.bound⟩
            · intro r c
              rcases h.values r c with hv | hv
              · exact Or.inl hv
              · exact Or.inr ⟨hv.1, hv.2.1, stepVia_sub layout ds delta rc (r, c) hv.2.2⟩
            · obtain ⟨ext, he, hp⟩ := h.queue_ext
              exact ⟨ext, he, fun p hpe =>
                ⟨(hp p hpe).1, stepVia_sub layout ds delta rc p (hp p hpe).2⟩⟩
            · intro q hq
              rcases (stepVia_cons layout ds delta rc q).mp hq with ⟨hok, hco1, hco2⟩ | hq2
              · obtain ⟨hqr, hqc, _⟩ := hok
                have e1 : ((rc.1 : Int) + delta.1).toNat = q.1 := by omega
                have e2 : ((rc.2 : Int) + delta.2).toNat = q.2 := by omega
                rw [e1, e2] at hg3
                rw [h.preserve q.1 q.2 hg3]
                exact hg3
              · exact h.cover q hq2
          · rw [if_neg hg3]
            have hq0ok : okCell layout (((rc.1 : Int) + delta.1).toNat,
                ((rc.2 : Int) + delta.2).toNat) := by
              refine ⟨by omega, by omega, hg2⟩
            have hq0via : stepVia layout (delta :: ds) rc
                (((rc.1 : Int) + delta.1).toNat, ((rc.2 : Int) + delta.2).toNat) :=
              (stepVia_cons layout ds delta rc _).mpr
                (Or.inl ⟨hq0ok, by omega, by omega⟩)
            have hmem1 : ∀ p : Nat × Nat,
                p ∈ qu ++ [(((rc.1 : Int) + delta.1).toNat,
                    ((rc.2 : Int) + delta.2).toNat)]
                ↔ 0 ≤ updDist dist ((rc.1 : Int) + delta.1).toNat
                    ((rc.2 : Int) + delta.2).toNat (d + 1) p.1 p.2 := by
              intro p
              by_cases hp : p = (((rc.1 : Int) + delta.1).toNat,
                  ((rc.2 : Int) + delta.2).toNat)
              · rw [hp]
                rw [updDist_self]
                constructor
                · intro _
                  omega
                · intro _
                  simp
              · have hpc : ¬(p.1 = ((rc.1 : Int) + delta.1).toNat
                    ∧ p.2 = ((rc.2 : Int) + delta.2).toNat) := by
                  intro hcon
                  exact hp (Prod.ext_iff.mpr hcon)
                rw [updDist_ne dist _ _ _ _ _ hpc]
                simp only [List.mem_append, List.mem_singleton]
                constructor
                · intro hor
                  rcases hor with hin | heq
                  · exact (hmem p).mp hin
                  · exact absurd heq hp
                · intro hpos
                  exact Or.inl ((hmem p).mpr hpos)
            have hnd1 : (qu ++ [(((rc.1 : Int) + delta.1).toNat,
                ((rc.2 : Int) + delta.2).toNat)]).Nodup := by
              rw [List.nodup_append]
              refine ⟨hnd, by simp, ?_⟩
              intro a ha hacon
              have : a = (((rc.1 : Int) + delta.1).toNat,
                  ((rc.2 : Int) + delta.2).toNat) := by simpa using hacon
              rw [this] at ha
              exact hg3 ((hmem _).mp ha)
            have hb1 : ∀ r c, 0 ≤ updDist dist ((rc.1 : Int) + delta.1).toNat
                ((rc.2 : Int) + delta.2).toNat (d + 1) r c →
                updDist dist ((rc.1 : Int) + delta.1).toNat
                  ((rc.2 : Int) + delta.2).toNat (d + 1) r c ≤ d + 1 := by
              intro r c hpos
              by_cases hrc : r = ((rc.1 : Int) + delta.1).toNat
                  ∧ c = ((rc.2 : Int) + delta.2).toNat
              · rw [updDist, if_pos hrc]
              · rw [updDist_ne dist _ _ _ _ _ hrc] at hpos ⊢
                exact hb r c hpos
            have h := ih (updDist dist ((rc.1 : Int) + delta.1).toNat
                ((rc.2 : Int) + delta.2).toNat (d + 1))
              (qu ++ [(((rc.1 : Int) + delta.1).toNat,
                ((rc.2 : Int) + delta.2).toNat)]) hmem1 hnd1 hb1
            have hpres0 : (ds.foldl (tryVisit layout rc d)
                (updDist dist ((rc.1 : Int) + delta.1).toNat
                  ((rc.2 : Int) + delta.2).toNat (d + 1),
                 qu ++ [(((rc.1 : Int) + delta.1).toNat,
                   ((rc.2 : Int) + delta.2).toNat)])).1
                ((rc.1 : Int) + delta.1).toNat ((rc.2 : Int) + delta.2).toNat = d + 1 := by
              rw [h.preserve _ _ (by rw [updDist_self]; omega), updDist_self]
            refine ⟨?_, ?_, ?_, h.mem_iff, h.nodup, ?_, h.bound⟩
            · intro r c hpos
              have hrc : ¬(r = ((rc.1 : Int) + delta.1).toNat
                  ∧ c = ((rc.2 : Int) + delta.2).toNat) := by
                intro hcon
                rw [hcon.1, hcon.2] at hpos
                exact hg3 hpos
              have hupd : updDist dist ((rc.1 : Int) + delta.1).toNat
                  ((rc.2 : Int) + delta.2).toNat (d + 1) r c = dist r c :=
                updDist_ne dist _ _ _ _ _ hrc
              rw [h.preserve r c (by rw [hupd]; exact hpos), hupd]
            · intro r c
              by_cases hrc : r = ((rc.1 : Int) + delta.1).toNat
                  ∧ c = ((rc.2 : Int) + delta.2).toNat
              · refine Or.inr ⟨?_, ?_, ?_⟩
                · rw [hrc.1, hrc.2]
                  exact hpres0
                · rw [hrc.1, hrc.2]
                  omega
                · have : ((r : Nat), (c : Nat)) = (((rc.1 : Int) + delta.1).toNat,
                      ((rc.2 : Int) + delta.2).toNat) := Prod.ext_iff.mpr hrc
                  rw [this]
                  exact hq0via
              · have hupd : updDist dist ((rc.1 : Int) + delta.1).toNat
                    ((rc.2 : Int) + delta.2).toNat (d + 1) r c = dist r c :=
                  updDist_ne dist _ _ _ _ _ hrc
                rcases h.values r c with hv | hv
                · rw [hupd] at hv
                  exact Or.inl hv
                · rw [hupd] at hv
                  exact Or.inr ⟨hv.1, hv.2.1, stepVia_sub layout ds delta rc (r, c) hv.2.2⟩
            · obtain ⟨ext, he, hp⟩ := h.queue_ext
              refine ⟨(((rc.1 : Int) + delta.1).toNat,
                  ((rc.2 : Int) + delta.2).toNat) :: ext, ?_, ?_⟩
              · rw [he, List.append_assoc]
                rfl
              · intro p hpe
                rcases List.mem_cons.mp hpe with hp0 | hpext
                · rw [hp0]
                  exact ⟨hpres0, hq0via⟩
                · exact ⟨(hp p hpext).1, stepVia_sub layout ds delta rc p (hp p hpext).2⟩
            · intro q hq
              rcases (stepVia_cons layout ds delta rc q).mp hq with ⟨hok, hco1, hco2⟩ | hq2
              · obtain ⟨hqr, hqc, _⟩ := hok
                have e1 : ((rc.1 : Int) + delta.1).toNat = q.1 := by omega
                have e2 : ((rc.2 : Int) + delta.2).toNat = q.2 := by omega
                rw [← e1, ← e2]
                rw [hpres0]
                omega
              · exact h.cover q hq2

theorem getD_mem_of_lt (l : List (Nat × Nat)) (i : Nat) (h : i < l.length) :
    l.getD i (0, 0) ∈ l := by
  rw [List.getD_eq_getElem l (0, 0) h]
  exact List.getElem_mem h

theorem mem_exists_getD (l : List (Nat × Nat)) (p : Nat × Nat) (h : p ∈ l) :
    ∃ i, i < l.length ∧ l.getD i (0, 0) = p := by
  obtain ⟨i, hi, hget⟩ := List.mem_iff_getElem.mp h
  refine ⟨i, hi, ?_⟩
  rw [List.getD_eq_getElem l (0, 0) hi]
  exact hget

theorem bfsStep_inv (layout : Layout) (start : Nat × Nat) (s : BfsSt)
    (hinv : BfsInv layout start s) (hlt : s.head < s.queue.length) :
    BfsInv layout start (bfsStep layout s) := by
  obtain ⟨hmem, hnd, hhd, hsound, hmono, htail, hproc, hstart, hbounds⟩ := hinv
  have hxmem : s.queue.getD s.head (0, 0) ∈ s.queue := getD_mem_of_lt _ _ hlt
  have hd0 : 0 ≤ s.dist (s.queue.getD s.head (0, 0)).1 (s.queue.getD s.head (0, 0)).2 :=
    (hmem _).mp hxmem
  have hb : ∀ r c, 0 ≤ s.dist r c →
      s.dist r c ≤ s.dist (s.queue.getD s.head (0, 0)).1 (s.queue.getD s.head (0, 0)).2 + 1 := by
    intro r c hpos
    have hpmem : ((r, c) : Nat × Nat) ∈ s.queue := (hmem (r, c)).mpr hpos
    obtain ⟨j, hj, hget⟩ := mem_exists_getD _ _ hpmem
    have hjb := htail hlt j hj
    rw [hget] at hjb
    exact hjb
  have hfold := tryVisit_fold_spec layout (s.queue.getD s.head (0, 0))
    (s.dist (s.queue.getD s.head (0, 0)).1 (s.queue.getD s.head (0, 0)).2) hd0
    DELTAS s.dist s.queue hmem hnd hb
  obtain ⟨ext, hqe, hext⟩ := hfold.queue_ext
  show BfsInv layout start
    ⟨(DELTAS.foldl (tryVisit layout (s.queue.getD s.head (0, 0))
        (s.dist (s.queue.getD s.head (0, 0)).1 (s.queue.getD s.head (0, 0)).2))
        (s.dist, s.queue)).1,
      (DELTAS.foldl (tryVisit layout (s.queue.getD s.head (0, 0))
        (s.dist (s.queue.getD s.head (0, 0)).1 (s.queue.getD s.head (0, 0)).2))
        (s.dist, s.queue)).2,
      s.head + 1⟩
  set d := s.dist (s.queue.getD s.head (0, 0)).1 (s.queue.getD s.head (0, 0)).2 with hdref
  set res := DELTAS.foldl (tryVisit layout (s.queue.getD s.head (0, 0)) d)
    (s.dist, s.queue) with hres
  have hlen : res.2.length = s.queue.length + ext.length := by
    rw [hqe, List.length_append]
  have hgetold : ∀ i, i < s.queue.length →
      res.2.getD i (0, 0) = s.queue.getD i (0, 0) := by
    intro i hi
    rw [hqe]
    exact List.getD_append _ _ _ _ hi
  have hgetnew : ∀ i, s.queue.length ≤ i → i < res.2.length →
      res.1 (res.2.getD i (0, 0)).1 (res.2.getD i (0, 0)).2 = d + 1
      ∧ stepTo layout (s.queue.getD s.head (0, 0)) (res.2.getD i (0, 0)) := by
    intro i hge hilt
    have hidx : i - s.queue.length < ext.length := by omega
    have hgr : res.2.getD i (0, 0) = ext.getD (i - s.queue.length) (0, 0) := by
      rw [hqe]
      exact List.getD_append_right _ _ _ _ hge
    have hmem2 : ext.getD (i - s.queue.length) (0, 0) ∈ ext := getD_mem_of_lt _ _ hidx
    rw [hgr]
    exact ⟨(hext _ hmem2).1, (hext _ hmem2).2⟩
  have holdval : ∀ p : Nat × Nat, p ∈ s.queue → res.1 p.1 p.2 = s.dist p.1 p.2 := by
    intro p hp
    exact hfold.preserve p.1 p.2 ((hmem p).mp hp)
  refine ⟨hfold.mem_iff, hfold.nodup, ?_, ?_, ?_, ?_, ?_, ?_, ?_⟩
  · -- head_le
    show s.head + 1 ≤ res.2.length
    omega
  · -- sound
    intro p hp
    replace hp : p ∈ res.2 := hp
    show Walk layout start p (res.1 p.1 p.2).toNat
    rw [hqe] at hp
    rcases List.mem_append.mp hp with hin | hinext
    · rw [holdval p hin]
      exact hsound p hin
    · have hv := hext p hinext
      rw [hv.1]
      have hnat : (d + 1).toNat = d.toNat + 1 := by omega
      rw [hnat]
      exact Walk.succ (hsound _ hxmem) hv.2
  · -- mono
    intro i j hij hj
    replace hj : j < res.2.length := hj
    show res.1 (res.2.getD i (0, 0)).1 (res.2.getD i (0, 0)).2
      ≤ res.1 (res.2.getD j (0, 0)).1 (res.2.getD j (0, 0)).2
    by_cases hjold : j < s.queue.length
    · have hiold : i < s.queue.length := by omega
      rw [hgetold i hiold, hgetold j hjold]
      rw [holdval _ (getD_mem_of_lt _ _ hiold), holdval _ (getD_mem_of_lt _ _ hjold)]
      exact hmono i j hij hjold
    · have hjv := hgetnew j (by omega) hj
      rw [hjv.1]
      by_cases hiold : i < s.queue.length
      · rw [hgetold i hiold]
        rw [holdval _ (getD_mem_of_lt _ _ hiold)]
        exact hb _ _ ((hmem _).mp (getD_mem_of_lt _ _ hiold))
      · have hiv := hgetnew i (by omega) (by omega)
        rw [hiv.1]
  · -- tail_bound
    intro hlt2 j hj
    replace hlt2 : s.head + 1 < res.2.length := hlt2
    replace hj : j < res.2.length := hj
    show res.1 (res.2.getD j (0, 0)).1 (res.2.getD j (0, 0)).2
      ≤ res.1 (res.2.getD (s.head + 1) (0, 0)).1 (res.2.getD (s.head + 1) (0, 0)).2 + 1
    have hmid : d ≤ res.1 (res.2.getD (s.head + 1) (0, 0)).1
        (res.2.getD (s.head + 1) (0, 0)).2 := by
      by_cases hm : s.head + 1 < s.queue.length
      · rw [hgetold _ hm, holdval _ (getD_mem_of_lt _ _ hm)]
        exact hmono s.head (s.head + 1) (by omega) hm
      · have hv := hgetnew (s.head + 1) (by omega) hlt2
        rw [hv.1]
        omega
    by_cases hjold : j < s.queue.length
    · rw [hgetold j hjold, holdval _ (getD_mem_of_lt _ _ hjold)]
      have := hb _ _ ((hmem _).mp (getD_mem_of_lt _ _ hjold))
      omega
    · have hv := hgetnew j (by omega) hj
      rw [hv.1]
      omega
  · -- processed
    intro i hi q hq
    replace hi : i < s.head + 1 := hi
    replace hq : stepTo layout (res.2.getD i (0, 0)) q := hq
    show 0 ≤ res.1 q.1 q.2
      ∧ res.1 q.1 q.2 ≤ res.1 (res.2.getD i (0, 0)).1 (res.2.getD i (0, 0)).2 + 1
    by_cases hiold : i < s.head
    · rw [hgetold i (by omega)] at hq ⊢
      have hp := hproc i hiold q hq
      rw [hfold.preserve q.1 q.2 hp.1, holdval _ (getD_mem_of_lt _ _ (by omega))]
      exact hp
    · have hieq : i = s.head := by omega
      rw [hieq, hgetold s.head hlt] at hq ⊢
      have hcov := hfold.cover q hq
      have hbnd := hfold.bound q.1 q.2 hcov
      rw [holdval _ hxmem]
      exact ⟨hcov, hbnd⟩
  · -- start_zero
    show res.1 start.1 start.2 = 0
    have h0 : 0 ≤ s.dist start.1 start.2 := by omega
    rw [hfold.preserve start.1 start.2 h0]
    exact hstart
  · -- inBounds
    intro p hp
    replace hp : p ∈ res.2 := hp
    rw [hqe] at hp
    rcases List.mem_append.mp hp with hin | hinext
    · exact hbounds p hin
    · obtain ⟨hok, _⟩ := (hext p hinext).2
      exact ⟨hok.1, hok.2.1⟩

theorem bfsRun_inv (layout : Layout) (start : Nat × Nat) :
    ∀ (fuel : Nat) (s : BfsSt), BfsInv layout start s →
      BfsInv layout start (bfsRun layout fuel s) := by
  intro fuel
  induction fuel with
  | zero =>
      intro s hs
      exact hs
  | succ k ih =>
      intro s hs
      rw [bfsRun]
      by_cases h : s.head < s.queue.length
      · rw [if_pos h]
        exact ih _ (bfsStep_inv layout start s hs h)
      · rw [if_neg h]
        exact hs

theorem bfsRun_progress (layout : Layout) :
    ∀ (fuel : Nat) (s : BfsSt),
      (bfsRun layout fuel s).head < (bfsRun layout fuel s).queue.length →
      s.head + fuel ≤ (bfsRun layout fuel s).head := by
  intro fuel
  induction fuel with
  | zero =>
      intro s _
      show s.head + 0 ≤ s.head
      omega
  | succ k ih =>
      intro s hunf
      rw [bfsRun] at hunf ⊢
      by_cases h : s.head < s.queue.length
      · rw [if_pos h] at hunf ⊢
        have hrec := ih (bfsStep layout s) hunf
        have hstep : (bfsStep layout s).head = s.head + 1 := rfl
        omega
      · rw [if_neg h] at hunf
        exact absurd hunf h

theorem inv_len_le (layout : Layout) (start : Nat × Nat) (s : BfsSt)
    (hinv : BfsInv layout start s) :
    s.queue.length ≤ rowsOf layout * colsOf layout := by
  have hsub : s.queue.toFinset
      ⊆ Finset.range (rowsOf layout) ×ˢ Finset.range (colsOf layout) := by
    intro p hp
    rw [List.mem_toFinset] at hp
    have hb := hinv.inBounds p hp
    rw [Finset.mem_product, Finset.mem_range, Finset.mem_range]
    exact hb
  have hcard := Finset.card_le_card hsub
  rw [List.toFinset_card_of_nodup hinv.nodup, Finset.card_product,
    Finset.card_range, Finset.card_range] at hcard
  exact hcard

theorem bfs_init_inv (layout : Layout) (start : Nat × Nat)
    (hr : start.1 < rowsOf layout) (hc : start.2 < colsOf layout) :
    BfsInv layout start ⟨updDist (fun _ _ => -1) start.1 start.2 0, [start], 0⟩ := by
  refine ⟨?_, ?_, ?_, ?_, ?_, ?_, ?_, ?_, ?_⟩
  · intro p
    constructor
    · intro hp
      have hp0 : p = start := by simpa using hp
      rw [hp0]
      show (0 : Int) ≤ updDist (fun _ _ => -1) start.1 start.2 0 start.1 start.2
      rw [updDist_self]
    · intro hpos
      replace hpos : (0 : Int) ≤ updDist (fun _ _ => -1) start.1 start.2 0 p.1 p.2 :=
        hpos
      by_cases hp : p = start
      · simp [hp]
      · exfalso
        have hpc : ¬(p.1 = start.1 ∧ p.2 = start.2) := fun hcon =>
          hp (Prod.ext_iff.mpr hcon)
        rw [updDist_ne _ _ _ _ _ _ hpc] at hpos
        simp at hpos
  · simp
  · simp
  · intro p hp
    have hp0 : p = start := by simpa using hp
    rw [hp0]
    show Walk layout start start
      (updDist (fun _ _ => -1) start.1 start.2 0 start.1 start.2).toNat
    rw [updDist_self]
    exact Walk.zero
  · intro i j hij hj
    have hj1 : j < 1 := by simpa using hj
    have hij0 : i = j := by omega
    rw [hij0]
  · intro h0 j hj
    have hj1 : j < 1 := by simpa using hj
    have hj0 : j = 0 := by omega
    rw [hj0]
    show updDist (fun _ _ => -1) start.1 start.2 0
        (([start] : List (Nat × Nat)).getD 0 (0, 0)).1
        (([start] : List (Nat × Nat)).getD 0 (0, 0)).2
      ≤ updDist (fun _ _ => -1) start.1 start.2 0
        (([start] : List (Nat × Nat)).getD 0 (0, 0)).1
        (([start] : List (Nat × Nat)).getD 0 (0, 0)).2 + 1
    omega
  · intro i hi
    exact absurd hi (Nat.not_lt_zero i)
  · show updDist (fun _ _ => -1) start.1 start.2 0 start.1 start.2 = 0
    rw [updDist_self]
  · intro p hp
    have hp0 : p = start := by simpa using hp
    rw [hp0]
    exact ⟨hr, hc⟩

theorem bfs_final (layout : Layout) (start : Nat × Nat)
    (hr : start.1 < rowsOf layout) (hc : start.2 < colsOf layout) :
    BfsInv layout start (bfsRun layout (rowsOf layout * colsOf layout)
      ⟨updDist (fun _ _ => -1) start.1 start.2 0, [start], 0⟩)
    ∧ (bfsRun layout (rowsOf layout * colsOf layout)
        ⟨updDist (fun _ _ => -1) start.1 start.2 0, [start], 0⟩).head
      = (bfsRun layout (rowsOf layout * colsOf layout)
        ⟨updDist (fun _ _ => -1) start.1 start.2 0, [start], 0⟩).queue.length := by
  have hfin := bfsRun_inv layout start (rowsOf layout * colsOf layout) _
    (bfs_init_inv layout start hr hc)
  refine ⟨hfin, ?_⟩
  have hle := hfin.head_le
  by_contra hne
  have hlt2 : (bfsRun layout (rowsOf layout * colsOf layout)
      ⟨updDist (fun _ _ => -1) start.1 start.2 0, [start], 0⟩).head
      < (bfsRun layout (rowsOf layout * colsOf layout)
        ⟨updDist (fun _ _ => -1) start.1 start.2 0, [start], 0⟩).queue.length := by
    omega
  have hprog := bfsRun_progress layout (rowsOf layout * colsOf layout) _ hlt2
  have hlen := inv_len_le layout start _ hfin
  simp only at hprog
  omega

theorem bfs_dist_correct (layout : Layout) (start : Nat × Nat)
    (hr : start.1 < rowsOf layout) (hc : start.2 < colsOf layout) :
    (∀ p : Nat × Nat, 0 ≤ bfsDistances layout start.1 start.2 p.1 p.2 →
      Walk layout start p (bfsDistances layout start.1 start.2 p.1 p.2).toNat)
    ∧ (∀ (p : Nat × Nat) (n : Nat), Walk layout start p n →
        0 ≤ bfsDistances layout start.1 start.2 p.1 p.2
        ∧ bfsDistances layout start.1 start.2 p.1 p.2 ≤ (n : Int)) := by
  obtain ⟨hfin, hdone⟩ := bfs_final layout start hr hc
  have hdist : bfsDistances layout start.1 start.2
      = (bfsRun layout (rowsOf layout * colsOf layout)
          ⟨updDist (fun _ _ => -1) start.1 start.2 0, [start], 0⟩).dist := rfl
  constructor
  · intro p hpos
    rw [hdist] at hpos ⊢
    exact hfin.sound p ((hfin.mem_iff p).mpr hpos)
  · intro p n hw
    rw [hdist]
    induction hw with
    | zero =>
        have hz := hfin.start_zero
        constructor
        · omega
        · rw [hz]
          omega
    | succ hw hst ih =>
        obtain ⟨hx0, hxle⟩ := ih
        have hxm := (hfin.mem_iff _).mpr hx0
        obtain ⟨i, hi, hget⟩ := mem_exists_getD _ _ hxm
        have hiproc : i < (bfsRun layout (rowsOf layout * colsOf layout)
            ⟨updDist (fun _ _ => -1) start.1 start.2 0, [start], 0⟩).head := by
          omega
        have hp := hfin.processed i hiproc _ (by rw [hget]; exact hst)
        rw [hget] at hp
        refine ⟨hp.1, ?_⟩
        have hb2 := hp.2
        push_cast
        omega

theorem emittersOf_bounds (layout : Layout) (em : Emitter)
    (h : em ∈ emittersOf layout) :
    em.row < rowsOf layout ∧ em.col < colsOf layout := by
  rw [emittersOf] at h
  obtain ⟨r, hr, hmem⟩ := List.mem_flatMap.mp h
  obtain ⟨c, hc, hsome⟩ := List.mem_filterMap.mp hmem
  rw [List.mem_range] at hr hc
  by_cases h1 : cellAt layout r c = CELL_GOAL
  · rw [if_pos h1] at hsome
    injection hsome with h2
    rw [← h2]
    exact ⟨hr, hc⟩
  · rw [if_neg h1] at hsome
    by_cases h2 : cellAt layout r c = CELL_PIT
    · rw [if_pos h2] at hsome
      injection hsome with h3
      rw [← h3]
      exact ⟨hr, hc⟩
    · rw [if_neg h2] at hsome
      exact absurd hsome (Option.noConfusion)

/-- C1: after SignalField construction (and after any compute() run with the
constructor's emitter list) the field at every in-bounds cell equals the sum
over the emitters of their contributions strength / (1 + d); for every
emitter, the BFS distance d at the cell is non-negative exactly when the cell
is reachable from the emitter by a 4-connected walk over in-bounds non-wall
cells, in which case d is the length of a shortest such walk, and an emitter
from which the cell is unreachable contributes exactly 0. -/
theorem c1_field_shortest_path_sum (layout : Layout) (r c : Nat)
    (hr : r < rowsOf layout) (hc : c < colsOf layout) :
    (SignalField.init layout).field r c
      = ((emittersOf layout).map (fun em => contribOf layout em r c)).sum
    ∧ (∀ sf : SignalField, sf.layout = layout → sf.emitters = emittersOf layout →
        sf.compute.field r c
          = ((emittersOf layout).map (fun em => contribOf layout em r c)).sum)
    ∧ (∀ em ∈ emittersOf layout,
        (0 ≤ bfsDistances layout em.row em.col r c
          ↔ ∃ n, Walk layout (em.row, em.col) (r, c) n)
        ∧ (∀ n, Walk layout (em.row, em.col) (r, c) n →
            Walk layout (em.row, em.col) (r, c)
              (bfsDistances layout em.row em.col r c).toNat
            ∧ (bfsDistances layout em.row em.col r c).toNat ≤ n)
        ∧ contribOf layout em r c
          = (if 0 ≤ bfsDistances layout em.row em.col r c then
              em.strength / (1 + (bfsDistances layout em.row em.col r c : ℚ))
            else 0)) := by
  refine ⟨?_, ?_, ?_⟩
  · show computeField layout (emittersOf layout) (fun _ _ => 0) r c = _
    rw [computeField_eq, if_pos ⟨hr, hc⟩, zero_add]
  · intro sf h1 h2
    show computeField sf.layout sf.emitters sf.field r c = _
    rw [h1, h2, computeField_eq, if_pos ⟨hr, hc⟩, zero_add]
  · intro em hem
    obtain ⟨hbr, hbc⟩ := emittersOf_bounds layout em hem
    have hcorr := bfs_dist_correct layout (em.row, em.col) hbr hbc
    dsimp only at hcorr
    refine ⟨?_, ?_, ?_⟩
    · constructor
      · intro hpos
        exact ⟨_, hcorr.1 (r, c) hpos⟩
      · rintro ⟨n, hw⟩
        exact (hcorr.2 (r, c) n hw).1
    · intro n hw
      have h1 := (hcorr.2 (r, c) n hw).1
      have h2 := (hcorr.2 (r, c) n hw).2
      dsimp only at h1 h2
      exact ⟨hcorr.1 (r, c) h1, by omega⟩
    · by_cases hdist : 0 ≤ bfsDistances layout em.row em.col r c
      · rw [contribOf, if_pos ⟨hr, hc, hdist⟩, if_pos hdist]
      · rw [contribOf, if_neg (fun hcon => hdist hcon.2.2), if_neg hdist]

/-- C1 witness: the field sum theorem applied at a concrete in-bounds cell of
a concrete layout. -/
theorem c1_field_shortest_path_sum_witness :
    0 < rowsOf [[2, 0]] ∧ 1 < colsOf [[2, 0]] ∧
      (SignalField.init [[2, 0]]).field 0 1
        = ((emittersOf [[2, 0]]).map (fun em => contribOf [[2, 0]] em 0 1)).sum :=
  ⟨by decide, by decide,
    (c1_field_shortest_path_sum [[2, 0]] 0 1 (by decide) (by decide)).1⟩

end RLGrid
